import Mathlib

set_option maxRecDepth 4000

/-!
Verification of the spiral-architecture bispectrum notebook
(`Invariants-computation.ipynb`, Python 2).

The Python source is shallowly embedded below.  Machine integers of the
source are `Nat`; the source's two failure modes — the
"Invalid spiral address!" early return and a Python `IndexError` raised by
an out-of-range lookup in one of the 7×7 tables — are modelled with
`Except SpiralErr`.  The recursion of `spiral_add` is not structural in its
arguments, so it is embedded with an explicit fuel parameter
(`spiralAddF`); the recursion depth of the source is bounded by 4 nested
calls (each nested call has a first argument of at most two digits and the
nesting bottoms out in single-digit table lookups), so the constant fuel 8
used by `spiral_add` is never exhausted on any input.  All definitions are
structurally recursive and hence evaluable by the kernel.
-/

/-- Failure modes of the Python source: the "Invalid spiral address!"
print-and-return-None path, a Python `IndexError` from an out-of-range
list lookup, and fuel exhaustion (an artifact of the embedding, unreachable
for the constant fuel used by `spiral_add`). -/
inductive SpiralErr where
  | invalidAddress : SpiralErr
  | indexError : SpiralErr
  | fuelOut : SpiralErr
deriving DecidableEq, Repr

/-- Value of a least-significant-first decimal digit list (helper used in
statements and proofs; `int(''.join(arr reversed))` of the source also
denotes this value). -/
def valOfDigits : List Nat → Nat
  | [] => 0
  | d :: t => d + 10 * valOfDigits t

/-- Fuel-indexed decimal digit expansion, least-significant first.
`digitsFuel f n` is the full expansion whenever `n ≤ f` (the quotient
`n / 10` strictly decreases, so `n` steps always suffice). -/
def digitsFuel : Nat → Nat → List Nat
  | _, 0 => []
  | 0, _ => []
  | f + 1, n + 1 => ((n + 1) % 10) :: digitsFuel f ((n + 1) / 10)

/-- `int2intvec` of the source: decimal digits of `a`, least-significant
first; `int2intvec 0 = [0]` (the first digit is emitted unconditionally,
then the loop runs while the quotient is nonzero). -/
def int2intvec (a : Nat) : List Nat :=
  (a % 10) :: digitsFuel a (a / 10)

/-- `addition_table` of `spiral_add`: 7×7; an entry may be a two-digit
token whose tens digit is a carry. -/
def addition_table : List (List Nat) :=
  [[0, 1, 2, 3, 4, 5, 6],
   [1, 63, 15, 2, 0, 6, 64],
   [2, 15, 14, 26, 3, 0, 1],
   [3, 2, 26, 25, 31, 4, 0],
   [4, 0, 3, 31, 36, 42, 5],
   [5, 6, 0, 4, 42, 41, 53],
   [6, 64, 1, 0, 5, 53, 52]]

/-- `multiplication_table` of `spiral_mult`: 7×7. -/
def multiplication_table : List (List Nat) :=
  [[0, 0, 0, 0, 0, 0, 0],
   [0, 1, 2, 3, 4, 5, 6],
   [0, 2, 3, 4, 5, 6, 1],
   [0, 3, 4, 5, 6, 1, 2],
   [0, 4, 5, 6, 1, 2, 3],
   [0, 5, 6, 1, 2, 3, 4],
   [0, 6, 1, 2, 3, 4, 5]]

/-- Python `table[i][j]` on a list of lists: out-of-range raises
`IndexError`. -/
def tlookup (t : List (List Nat)) (i j : Nat) : Except SpiralErr Nat :=
  match (t.get? i).bind (fun row => row.get? j) with
  | some v => .ok v
  | none => .error .indexError

/-- Pad a digit list with zeros at the end (most-significant side), as
`numpy.resize` does to the shorter operand in `spiral_add`. -/
def padTo (l : List Nat) (n : Nat) : List Nat :=
  l ++ List.replicate (n - l.length) 0

/-- The digit loop of `spiral_add` over two equal-length padded digit
lists, least-significant first.  `sadd` is the recursive `spiral_add` call
(at one less fuel, with the default `mod = 0`).  For every position but the
last: look the pair up, emit the ones digit, fold the tens digit (carry)
into the next digit of `a` via a recursive add; at the last position emit
the raw recursive-lookup result.  Positions are factored out:
`res = ones + 10 * rest` reproduces `res += (...)*(10**i)` of the source.
The source only reaches this loop with equal nonempty lengths, so the
final catch-all case is unreachable. -/
def addLoop (sadd : Nat → Nat → Except SpiralErr Nat) :
    List Nat → List Nat → Except SpiralErr Nat
  | [a0], [b0] => sadd a0 b0
  | a0 :: a1 :: arest, b0 :: b1 :: brest => do
    let temp ← sadd a0 b0
    let carry_on ← sadd a1 ((temp - temp % 10) / 10)
    let rest ← addLoop sadd (carry_on :: arest) (b1 :: brest)
    pure (temp % 10 + 10 * rest)
  | _, _ => pure 0

/-- `spiral_add` of the source, with explicit fuel.  Validation rejects a
digit `> 7` (not `> 6`!); two single-digit operands return the raw table
entry (skipping the `mod` step); otherwise the shorter operand is padded
with zeros and the carry loop runs; finally, `mod != 0` reduces the result
modulo `mod`. -/
def spiralAddF : Nat → Nat → Nat → Nat → Except SpiralErr Nat
  | 0, _, _, _ => .error .fuelOut
  | fuel + 1, a, b, mod =>
    let dig_a := int2intvec a
    let dig_b := int2intvec b
    if ¬ (dig_a.all (· ≤ 7) ∧ dig_b.all (· ≤ 7)) then .error .invalidAddress
    else if dig_a.length = 1 ∧ dig_b.length = 1 then tlookup addition_table a b
    else
      let n := max dig_a.length dig_b.length
      do
        let res ← addLoop (fun x y => spiralAddF fuel x y 0) (padTo dig_a n) (padTo dig_b n)
        pure (if mod ≠ 0 then res % mod else res)

/-- `spiral_add(a, b, mod)` of the source.  Fuel 8 strictly dominates the
maximal nesting depth (4) of the source's recursion, so `fuelOut` is never
returned. -/
def spiral_add (a b mod : Nat) : Except SpiralErr Nat :=
  spiralAddF 8 a b mod

/-- `spiral_mult(a, b, mod)` of the source: validate both operands
(again with the `> 7` check), then accumulate
`sa_mult = spiral_add(sa_mult, table[dig_a[j]][dig_b[i]] * 10^(i+j))` over
`i` (digits of `b`, outer) and `j` (digits of `a`, inner); finally reduce
mod `mod` if `mod != 0`. -/
def spiral_mult (a b mod : Nat) : Except SpiralErr Nat :=
  let dig_a := int2intvec a
  let dig_b := int2intvec b
  if ¬ (dig_a.all (· ≤ 7) ∧ dig_b.all (· ≤ 7)) then .error .invalidAddress
  else do
    let sa_mult ← dig_b.enum.foldlM (fun acc ib =>
      dig_a.enum.foldlM (fun acc2 ja => do
        let t ← tlookup multiplication_table ja.2 ib.2
        spiral_add acc2 (t * 10 ^ (ib.1 + ja.1)) 0) acc) 0
    pure (if mod ≠ 0 then sa_mult % mod else sa_mult)

/-- `base7to10` of the source (named for its docstring's direction; it maps
a spiral address to its positional value): read the decimal digits of `num`
as base-7 coefficients, `Σ arr[i] * 7^i`.  No digit validation is done. -/
def base7to10 (num : Nat) : Nat :=
  (int2intvec num).enum.foldl (fun acc p => acc + p.2 * 7 ^ p.1) 0

/-- Fuel-indexed base-7 digit expansion, least-significant first; `[]` for
`0`.  `base7digitsF f n` is the full expansion whenever `n ≤ f`. -/
def base7digitsF : Nat → Nat → List Nat
  | _, 0 => []
  | 0, _ => []
  | f + 1, n + 1 => ((n + 1) % 7) :: base7digitsF f ((n + 1) / 7)

/-- `base_encode(num, ALPHABET7)` of the source: `0` for `0`; otherwise the
base-7 digits of `num`, written most-significant first and re-read as a
decimal literal (`int(''.join(arr))`), i.e. the base-10 value of the
least-significant-first base-7 digit list. -/
def base_encode7 (num : Nat) : Nat :=
  if num = 0 then 0 else valOfDigits (base7digitsF num num)

/-- `base10to7` of the source: `base_encode(num, ALPHABET7)`. -/
def base10to7 (num : Nat) : Nat :=
  base_encode7 num

/-- The centered hyperpel of the source: 56 (row, column) offsets on a 9×9
window. -/
def hyperpel : List (Int × Int) :=
  [(-1, 4), (0, 4), (1, 4), (2, 4), (3, 4),
   (-2, 3), (-1, 3), (0, 3), (1, 3), (2, 3), (3, 3), (4, 3),
   (-2, 2), (-1, 2), (0, 2), (1, 2), (2, 2), (3, 2), (4, 2),
   (-3, 1), (-2, 1), (-1, 1), (0, 1), (1, 1), (2, 1), (3, 1), (4, 1), (5, 1),
   (-3, 0), (-2, 0), (-1, 0), (0, 0), (1, 0), (2, 0), (3, 0), (4, 0), (5, 0),
   (-2, -1), (-1, -1), (0, -1), (1, -1), (2, -1), (3, -1), (4, -1),
   (-2, -2), (-1, -2), (0, -2), (1, -2), (2, -2), (3, -2), (4, -2),
   (-1, -3), (0, -3), (1, -3), (2, -3), (3, -3)]

/-- `hyperpel_sa = hyperpel - np.array([1,1])` of the source. -/
def hyperpel_sa : List (Int × Int) :=
  hyperpel.map (fun p => (p.1 - 1, p.2 - 1))

/-- `sa2hex_aux(a, zeros)` of the source: the (row, column) offset
contributed by digit `a` at decimal position `zeros`.  Base table at depth
0; at depth `z+1` the recurrence
`sa2hex_aux a z + 2 * sa2hex_aux (a % 6 + 1) z`.  For `a > 6` at depth 0
the source falls through its `if` ladder and recurses forever; `sa2hex`
only calls this with `a ≤ 6` (and the recursive symbol `a % 6 + 1` stays in
`[1,6]`), so that branch is unreachable and is mapped to `(0, 0)`. -/
def sa2hex_aux (a : Nat) : Nat → Int × Int
  | 0 =>
    match a with
    | 0 => (0, 0)
    | 1 => (0, 8)
    | 2 => (-7, 4)
    | 3 => (-7, -4)
    | 4 => (0, -8)
    | 5 => (7, -4)
    | 6 => (7, 4)
    | _ => (0, 0)
  | z + 1 =>
    let p := sa2hex_aux a z
    let q := sa2hex_aux (a % 6 + 1) z
    (p.1 + 2 * q.1, p.2 + 2 * q.2)

/-- `sa2hex` of the source: walk the decimal digits of the spiral address,
least-significant first; a digit `> 6` aborts with the
"Invalid spiral address!" path; a nonzero digit `d` at position `i` adds
`sa2hex_aux d i` to the accumulated (row, column) offset. -/
def sa2hex (spiral_address : Nat) : Except SpiralErr (Int × Int) :=
  (int2intvec spiral_address).enum.foldlM
    (fun acc p =>
      if 6 < p.2 then .error .invalidAddress
      else if p.2 ≠ 0 then
        .ok (acc.1 + (sa2hex_aux p.2 p.1).1, acc.2 + (sa2hex_aux p.2 p.1).2)
      else .ok acc)
    ((0 : Int), (0 : Int))

/-- An oversampled grid as consumed by `sa_value`: a `rows × cols` numpy
array abstracted to its shape and a total entry function on in-range
(non-negative) indices. -/
structure NpGrid (K : Type) where
  rows : Nat
  cols : Nat
  data : Nat → Nat → K

/-- Numpy integer indexing `g[i, j]`: an index is in range when
`-rows ≤ i < rows` (negative indices wrap around), otherwise the access
raises `IndexError` (modelled as `none`). -/
def npGet {K : Type} (g : NpGrid K) (i j : Int) : Option K :=
  if -(g.rows : Int) ≤ i ∧ i < (g.rows : Int) ∧ -(g.cols : Int) ≤ j ∧ j < (g.cols : Int) then
    some (g.data (if i < 0 then i + (g.rows : Int) else i).toNat
                 (if j < 0 then j + (g.cols : Int) else j).toNat)
  else none

section Engine

variable {K : Type} [Field K] [StarRing K]

/-- `sa_value(oversampled_image, spiral_address)` of the source: translate
the 56 `hyperpel_sa` offsets by `sa2hex(spiral_address)`, accumulate the 56
grid values (`IndexError` if any access is out of numpy range), and return
the accumulated value divided by 56. -/
def sa_value (g : NpGrid K) (spiral_address : Nat) : Except SpiralErr K := do
  let c ← sa2hex spiral_address
  let val ← hyperpel_sa.foldlM
    (fun acc o =>
      match npGet g (o.1 + c.1) (o.2 + c.2) with
      | some v => .ok (acc + v)
      | none => .error (.indexError : SpiralErr))
    (0 : K)
  pure (val / 56)

/-- One loop iteration of `omegaf`:
`sa_value(fft_oversampled, spiral_mult(sa, i))`. -/
def omega_comp (g : NpGrid K) (sa i : Nat) : Except SpiralErr K := do
  let m ← spiral_mult sa i 0
  sa_value g m

/-- `omegaf(fft_oversampled, sa)` of the source: the 6-component vector
whose `i`-th component (1-indexed) is `sa_value(fft, spiral_mult(sa, i))`;
the loop `for i in range(1,7)` is unrolled. -/
def omegaf (g : NpGrid K) (sa : Nat) : Except SpiralErr (List K) := do
  let v1 ← omega_comp g sa 1
  let v2 ← omega_comp g sa 2
  let v3 ← omega_comp g sa 3
  let v4 ← omega_comp g sa 4
  let v5 ← omega_comp g sa 5
  let v6 ← omega_comp g sa 6
  pure [v1, v2, v3, v4, v5, v6]

/-- `np.vdot(x, y) = Σ conj(x_k) * y_k`: the scalar product with complex
conjugation applied to the first operand (as the source's comment warns). -/
def np_vdot (x y : List K) : K :=
  ((x.zip y).map (fun p => star p.1 * p.2)).sum

/-- `invariant(fft_oversampled, sa1, sa2, sa3)` of the source:
`np.vdot(omega1 * omega2, omega3)` with `omega_i = omegaf(fft, sa_i)` and
`*` the elementwise (numpy) product. -/
def invariant (g : NpGrid K) (sa1 sa2 sa3 : Nat) : Except SpiralErr K := do
  let omega1 ← omegaf g sa1
  let omega2 ← omegaf g sa2
  let omega3 ← omegaf g sa3
  pure (np_vdot (omega1.zipWith (· * ·) omega2) omega3)

/-- `indexes` of `bispectral_inv`: the canonical 9 spiral addresses. -/
def indexes : List Nat :=
  [0, 1, 10, 11, 12, 13, 14, 15, 16]

/-- `bispectral_inv(fft_oversampled_example, rotational)` of the source:
outer loop over `sa1` in `indexes`, inner loop over `sa2` in `indexes`;
in rotational mode an innermost loop over `r = 0..5` with
`sa2_rot = spiral_mult(sa2, r)` and
`sa3 = base10to7(base7to10(sa1) + base7to10(sa2_rot))`, emitting
`invariant(fft, sa1, sa2, sa3)` (note: the *unrotated* `sa2`); in plain
mode `sa3 = base10to7(base7to10(sa1) + base7to10(sa2))`.  The preallocated
output array filled at `count` is modelled by appending in loop order. -/
def bispectral_inv (g : NpGrid K) (rotational : Bool) : Except SpiralErr (List K) :=
  indexes.foldlM
    (fun acc sa1 =>
      indexes.foldlM
        (fun acc2 sa2 =>
          if rotational then
            (List.range 6).foldlM
              (fun acc3 r => do
                let sa2_rot ← spiral_mult sa2 r 0
                let sa3 := base10to7 (base7to10 sa1 + base7to10 sa2_rot)
                let v ← invariant g sa1 sa2 sa3
                pure (acc3 ++ [v]))
              acc2
          else do
            let sa3 := base10to7 (base7to10 sa1 + base7to10 sa2)
            let v ← invariant g sa1 sa2 sa3
            pure (acc2 ++ [v]))
        acc)
    []

end Engine

instance {ε α : Type} [DecidableEq ε] [DecidableEq α] : DecidableEq (Except ε α) := fun x y =>
  match x, y with
  | .ok a, .ok b =>
    if h : a = b then .isTrue (by rw [h]) else .isFalse (fun hc => h (Except.ok.inj hc))
  | .error a, .error b =>
    if h : a = b then .isTrue (by rw [h]) else .isFalse (fun hc => h (Except.error.inj hc))
  | .ok _, .error _ => .isFalse (fun hc => Except.noConfusion hc)
  | .error _, .ok _ => .isFalse (fun hc => Except.noConfusion hc)

/-- Base-7 positional value of a least-significant-first decimal digit
list (proof-side restatement of the `Σ arr[i] * 7^i` loop of
`base7to10`). -/
def polyval7 : List Nat → Nat
  | [] => 0
  | d :: t => d + 7 * polyval7 t

/-- Modelled from the spec, §4.4 `addressToOffset`: the offset of digit `a`
at recursion depth `z` — depth 0 from the fixed 7-entry table
`{0:(0,0), 1:(0,8), 2:(-7,4), 3:(-7,-4), 4:(0,-8), 5:(7,-4), 6:(7,4)}`,
and for `z > 0` the recurrence
`offset(a,z) = offset(a,z-1) + 2·offset((a mod 6)+1, z-1)`. -/
def spec_offset (a : Nat) : Nat → Int × Int
  | 0 =>
    match a with
    | 0 => (0, 0)
    | 1 => (0, 8)
    | 2 => (-7, 4)
    | 3 => (-7, -4)
    | 4 => (0, -8)
    | 5 => (7, -4)
    | 6 => (7, 4)
    | _ => (0, 0)
  | z + 1 => spec_offset a z + (2 * (spec_offset (a % 6 + 1) z).1, 2 * (spec_offset (a % 6 + 1) z).2)

/-- Modelled from the spec, §4.4: the offset of a full spiral address is
the sum of `offset(digit_i, i)` over all nonzero digits, `i` counted from
the least-significant digit. -/
def spec_addressToOffset (sa : Nat) : Int × Int :=
  ((int2intvec sa).enum.map (fun p => if p.2 ≠ 0 then spec_offset p.2 p.1 else (0, 0))).sum

/-- Effectful map over a list in `Except`, used to state which calls the
bispectrum loops emit and in which order. -/
def mapE {α β : Type} (f : α → Except SpiralErr β) : List α → Except SpiralErr (List β)
  | [] => .ok []
  | x :: xs => do
    let y ← f x
    let ys ← mapE f xs
    pure (y :: ys)

/-- The 81 ordered pairs of the plain bispectrum, in emission order:
outer loop over `sa1`, inner loop over `sa2`, both over `indexes`. -/
def plain_tuples : List (Nat × Nat) :=
  indexes.flatMap (fun sa1 => indexes.map (fun sa2 => (sa1, sa2)))

/-- The 486 ordered triples `(sa1, sa2, r)` of the rotational bispectrum,
in emission order: outer `sa1`, inner `sa2`, innermost `r = 0..5`. -/
def rot_tuples : List (Nat × Nat × Nat) :=
  indexes.flatMap (fun sa1 => indexes.flatMap (fun sa2 => (List.range 6).map (fun r => (sa1, sa2, r))))

/-! ### Basic facts about the embedding monad and digit lists -/

theorem except_bind_ok {ε α β : Type} (a : α) (f : α → Except ε β) :
    (Except.ok a : Except ε α) >>= f = f a := rfl

theorem except_bind_error {ε α β : Type} (e : ε) (f : α → Except ε β) :
    (Except.error e : Except ε α) >>= f = .error e := rfl

theorem digitsFuel_zero (f : Nat) : digitsFuel f 0 = [] := by
  cases f <;> rfl

theorem digitsFuel_succ (f n : Nat) :
    digitsFuel (f + 1) (n + 1) = ((n + 1) % 10) :: digitsFuel f ((n + 1) / 10) := rfl

theorem digitsFuel_eq_of_le (n : Nat) : ∀ f g : Nat, n ≤ f → n ≤ g →
    digitsFuel f n = digitsFuel g n := by
  induction n using Nat.strong_induction_on with
  | _ n ih =>
    intro f g hf hg
    cases n with
    | zero => simp [digitsFuel_zero]
    | succ m =>
      cases f with
      | zero => omega
      | succ f =>
        cases g with
        | zero => omega
        | succ g =>
          rw [digitsFuel_succ, digitsFuel_succ]
          have hlt : (m + 1) / 10 < m + 1 := Nat.div_lt_self (Nat.succ_pos m) (by omega)
          exact congrArg _ (ih ((m + 1) / 10) hlt f g (by omega) (by omega))

theorem int2intvec_eq (a : Nat) :
    int2intvec a = a % 10 :: (if a / 10 = 0 then [] else int2intvec (a / 10)) := by
  by_cases h : a / 10 = 0
  · simp [int2intvec, h, digitsFuel_zero]
  · have ha : 1 ≤ a := by
      by_contra hlt
      have : a = 0 := by omega
      rw [this] at h; simp at h
    obtain ⟨m, hm⟩ : ∃ m, a / 10 = m + 1 := ⟨a / 10 - 1, by omega⟩
    obtain ⟨c, hc⟩ : ∃ c, a = c + 1 := ⟨a - 1, by omega⟩
    simp only [int2intvec, if_neg h]
    congr 1
    rw [hm, hc, digitsFuel_succ]
    congr 1
    have hd1 : (m + 1) / 10 < m + 1 := Nat.div_lt_self (by omega) (by omega)
    have hd2 : a / 10 ≤ a := Nat.div_le_self a 10
    exact digitsFuel_eq_of_le ((m + 1) / 10) c (m + 1) (by omega) (by omega)

theorem int2intvec_of_lt {a : Nat} (h : a < 10) : int2intvec a = [a] := by
  rw [int2intvec_eq, Nat.mod_eq_of_lt h, Nat.div_eq_of_lt h]
  simp

theorem valOfDigits_int2intvec (a : Nat) : valOfDigits (int2intvec a) = a := by
  induction a using Nat.strong_induction_on with
  | _ a ih =>
    rw [int2intvec_eq]
    by_cases h : a / 10 = 0
    · simp [h, valOfDigits]; omega
    · have hlt : a / 10 < a := Nat.div_lt_self (by omega) (by omega)
      simp only [h, if_false, valOfDigits, ih (a / 10) hlt]
      omega

theorem int2intvec_length_le : ∀ (j a : Nat), a < 10 ^ (j + 1) →
    (int2intvec a).length ≤ j + 1 := by
  intro j
  induction j with
  | zero =>
    intro a ha
    rw [int2intvec_of_lt (by simpa using ha)]
    simp
  | succ j ih =>
    intro a ha
    rw [int2intvec_eq]
    by_cases h : a / 10 = 0
    · simp [h]
    · simp only [h, if_false, List.length_cons]
      have : a / 10 < 10 ^ (j + 1) := by
        rw [Nat.div_lt_iff_lt_mul (by omega : 0 < 10)]
        calc a < 10 ^ (j + 2) := ha
        _ = 10 ^ (j + 1) * 10 := by ring
      have := ih (a / 10) this
      omega

theorem int2intvec_mul_pow {d : Nat} (h1 : 1 ≤ d) (h9 : d < 10) :
    ∀ j : Nat, int2intvec (d * 10 ^ j) = List.replicate j 0 ++ [d] := by
  intro j
  induction j with
  | zero => simpa using int2intvec_of_lt h9
  | succ j ih =>
    have hmod : d * 10 ^ (j + 1) % 10 = 0 := by
      have : d * 10 ^ (j + 1) = d * 10 ^ j * 10 := by ring
      rw [this]; simp
    have hdiv : d * 10 ^ (j + 1) / 10 = d * 10 ^ j := by
      have : d * 10 ^ (j + 1) = d * 10 ^ j * 10 := by ring
      rw [this]; simp
    have hne : d * 10 ^ j ≠ 0 := by positivity
    rw [int2intvec_eq, hmod, hdiv, if_neg hne, ih]
    simp [List.replicate_succ]

theorem valOfDigits_append (xs ys : List Nat) :
    valOfDigits (xs ++ ys) = valOfDigits xs + 10 ^ xs.length * valOfDigits ys := by
  induction xs with
  | nil => simp [valOfDigits]
  | cons d t ih => simp [valOfDigits, ih, pow_succ]; ring

theorem valOfDigits_replicate_zero (n : Nat) :
    valOfDigits (List.replicate n 0) = 0 := by
  induction n with
  | zero => rfl
  | succ n ih => simp [List.replicate_succ, valOfDigits, ih]

theorem valOfDigits_lt (l : List Nat) (h : ∀ d ∈ l, d ≤ 9) :
    valOfDigits l < 10 ^ l.length := by
  induction l with
  | nil => simp [valOfDigits]
  | cons d t ih =>
    have hd : d ≤ 9 := h d (by simp)
    have ht := ih (fun x hx => h x (by simp [hx]))
    simp only [valOfDigits, List.length_cons, pow_succ]
    omega

theorem digits_le_of_valOfDigits (l : List Nat) (h : ∀ d ∈ l, d ≤ 6) :
    ∀ x ∈ int2intvec (valOfDigits l), x ≤ 6 := by
  induction l with
  | nil =>
    intro x hx
    simp only [valOfDigits] at hx
    rw [int2intvec_of_lt (by omega)] at hx
    simp at hx
    omega
  | cons d t ih =>
    intro x hx
    have hd : d ≤ 6 := h d (by simp)
    simp only [valOfDigits] at hx
    rw [int2intvec_eq] at hx
    have hmod : (d + 10 * valOfDigits t) % 10 = d := by omega
    have hdiv : (d + 10 * valOfDigits t) / 10 = valOfDigits t := by omega
    rw [hmod, hdiv] at hx
    rcases List.mem_cons.mp hx with h1 | h2
    · omega
    · by_cases hz : valOfDigits t = 0
      · rw [hz] at h2; simp at h2
      · rw [if_neg hz] at h2
        exact ih (fun x hx => h x (by simp [hx])) x h2

theorem padTo_length {l : List Nat} {n : Nat} (h : l.length ≤ n) :
    (padTo l n).length = n := by
  simp [padTo]; omega

theorem valOfDigits_padTo (l : List Nat) (n : Nat) :
    valOfDigits (padTo l n) = valOfDigits l := by
  simp [padTo, valOfDigits_append, valOfDigits_replicate_zero]

theorem getD_replicate_zero (n k : Nat) : (List.replicate n (0 : Nat)).getD k 0 = 0 := by
  induction n generalizing k with
  | zero => simp
  | succ n ih =>
    cases k with
    | zero => simp [List.replicate_succ]
    | succ k => simp [List.replicate_succ, ih k]

theorem padTo_getD (l : List Nat) (n k : Nat) : (padTo l n).getD k 0 = l.getD k 0 := by
  rw [List.getD_eq_getElem?_getD, List.getD_eq_getElem?_getD, padTo]
  by_cases h : k < l.length
  · rw [List.getElem?_append]
    simp [h]
  · rw [List.getElem?_append_right (by omega), List.getElem?_replicate,
      List.getElem?_eq_none (by omega : l.length ≤ k)]
    by_cases h2 : k - l.length < n - l.length <;> simp [h2]

theorem getD_le_of_all {l : List Nat} (h : ∀ d ∈ l, d ≤ 6) (k : Nat) : l.getD k 0 ≤ 6 := by
  by_cases hk : k < l.length
  · rw [List.getD_eq_getElem _ _ hk]
    exact h _ (List.getElem_mem hk)
  · rw [List.getD_eq_default _ _ (by omega)]
    omega

theorem int2intvec_length_one {a : Nat} (h : (int2intvec a).length = 1) : a < 10 := by
  by_contra hge
  rw [int2intvec_eq, if_neg (by omega : ¬ a / 10 = 0)] at h
  simp only [List.length_cons] at h
  have : (int2intvec (a / 10)).length ≥ 1 := by
    rw [int2intvec_eq]; simp
  omega

/-! ### Carry-free additions evaluate positionally -/

theorem spiralAddF_succ (f a b mod : Nat) :
    spiralAddF (f + 1) a b mod =
      (let dig_a := int2intvec a
       let dig_b := int2intvec b
       if ¬ (dig_a.all (· ≤ 7) ∧ dig_b.all (· ≤ 7)) then .error .invalidAddress
       else if dig_a.length = 1 ∧ dig_b.length = 1 then tlookup addition_table a b
       else
         let n := max dig_a.length dig_b.length
         do
           let res ← addLoop (fun x y => spiralAddF f x y 0) (padTo dig_a n) (padTo dig_b n)
           pure (if mod ≠ 0 then res % mod else res)) := rfl

theorem addLoop_pair (sadd : Nat → Nat → Except SpiralErr Nat) (a0 b0 : Nat) :
    addLoop sadd [a0] [b0] = sadd a0 b0 := rfl

theorem addLoop_cons (sadd : Nat → Nat → Except SpiralErr Nat)
    (a0 a1 b0 b1 : Nat) (arest brest : List Nat) :
    addLoop sadd (a0 :: a1 :: arest) (b0 :: b1 :: brest) =
      (do
        let temp ← sadd a0 b0
        let carry_on ← sadd a1 ((temp - temp % 10) / 10)
        let rest ← addLoop sadd (carry_on :: arest) (b1 :: brest)
        pure (temp % 10 + 10 * rest)) := rfl

theorem add_single_disjoint {f : Nat} (hf : 1 ≤ f) (m : Nat) {x y : Nat}
    (hx : x ≤ 6) (hy : y ≤ 6) (hxy : x = 0 ∨ y = 0) :
    spiralAddF f x y m = .ok (x + y) := by
  obtain ⟨f, rfl⟩ : ∃ g, f = g + 1 := ⟨f - 1, by omega⟩
  rcases hxy with h | h
  · subst h; interval_cases y <;> rfl
  · subst h; interval_cases x <;> rfl

theorem addLoop_nocarry {f : Nat} (hf : 1 ≤ f) :
    ∀ (da db : List Nat), da.length = db.length → 1 ≤ da.length →
    (∀ k : Nat, da.getD k 0 ≤ 6 ∧ db.getD k 0 ≤ 6 ∧ (da.getD k 0 = 0 ∨ db.getD k 0 = 0)) →
    addLoop (fun x y => spiralAddF f x y 0) da db
      = .ok (valOfDigits da + valOfDigits db) := by
  intro da
  induction da with
  | nil => intro db _ h2 _; simp at h2
  | cons a0 arest ih =>
    intro db hlen hpos hcond
    cases db with
    | nil => simp at hlen
    | cons b0 brest =>
      have h0 := hcond 0
      simp only [List.getD_cons_zero] at h0
      cases arest with
      | nil =>
        cases brest with
        | nil =>
          rw [addLoop_pair, add_single_disjoint hf 0 h0.1 h0.2.1 h0.2.2]
          simp [valOfDigits]
        | cons b1 brest => simp at hlen
      | cons a1 arest2 =>
        cases brest with
        | nil => simp at hlen
        | cons b1 brest2 =>
          have h1 := hcond 1
          simp only [List.getD_cons_succ, List.getD_cons_zero] at h1
          simp only [addLoop_cons]
          rw [add_single_disjoint hf 0 h0.1 h0.2.1 h0.2.2]
          simp only [except_bind_ok]
          have ht6 : a0 + b0 ≤ 6 := by rcases h0.2.2 with h | h <;> omega
          have hcarry : (a0 + b0 - (a0 + b0) % 10) / 10 = 0 := by omega
          rw [hcarry, add_single_disjoint hf 0 h1.1 (by omega) (Or.inr rfl)]
          simp only [except_bind_ok, Nat.add_zero]
          have hrest := ih (b1 :: brest2) (by simpa using hlen) (by simp)
            (fun k => by simpa using hcond (k + 1))
          rw [hrest]
          simp only [except_bind_ok]
          show Except.ok _ = Except.ok _
          congr 1
          simp only [valOfDigits]
          omega

theorem length_int2intvec_pos (a : Nat) : 1 ≤ (int2intvec a).length := by
  rw [int2intvec]; simp

theorem all_le7_of_le6 {l : List Nat} (h : ∀ d ∈ l, d ≤ 6) :
    l.all (· ≤ 7) = true := by
  rw [List.all_eq_true]
  intro d hdm
  simpa using le_trans (h d hdm) (by omega)

theorem add_no_overlap (acc b : Nat)
    (ha : ∀ d ∈ int2intvec acc, d ≤ 6) (hb : ∀ d ∈ int2intvec b, d ≤ 6)
    (hd : ∀ k, (int2intvec acc).getD k 0 = 0 ∨ (int2intvec b).getD k 0 = 0) :
    spiral_add acc b 0 = .ok (acc + b) := by
  show spiralAddF (7 + 1) acc b 0 = .ok (acc + b)
  rw [spiralAddF_succ]
  simp only []
  rw [if_neg (by simp [all_le7_of_le6 ha, all_le7_of_le6 hb])]
  by_cases hsingle : (int2intvec acc).length = 1 ∧ (int2intvec b).length = 1
  · rw [if_pos hsingle]
    have hacc : acc < 10 := int2intvec_length_one hsingle.1
    have hbb : b < 10 := int2intvec_length_one hsingle.2
    have h6a : acc ≤ 6 := by
      have := ha acc; rw [int2intvec_of_lt hacc] at this; simpa using this
    have h6b : b ≤ 6 := by
      have := hb b; rw [int2intvec_of_lt hbb] at this; simpa using this
    have hdisj : acc = 0 ∨ b = 0 := by
      have := hd 0
      rw [int2intvec_of_lt hacc, int2intvec_of_lt hbb] at this
      simpa using this
    rcases hdisj with h | h
    · subst h; interval_cases b <;> rfl
    · subst h; interval_cases acc <;> rfl
  · rw [if_neg hsingle]
    have hna : (int2intvec acc).length ≤ max (int2intvec acc).length (int2intvec b).length :=
      le_max_left _ _
    have hnb : (int2intvec b).length ≤ max (int2intvec acc).length (int2intvec b).length :=
      le_max_right _ _
    have key := addLoop_nocarry (f := 7) (by omega)
      (padTo (int2intvec acc) (max (int2intvec acc).length (int2intvec b).length))
      (padTo (int2intvec b) (max (int2intvec acc).length (int2intvec b).length))
      (by rw [padTo_length hna, padTo_length hnb])
      (by rw [padTo_length hna]; have := length_int2intvec_pos acc; omega)
      (fun k => by
        rw [padTo_getD, padTo_getD]
        exact ⟨getD_le_of_all ha k, getD_le_of_all hb k, hd k⟩)
    rw [key]
    simp only [except_bind_ok]
    simp [valOfDigits_padTo, valOfDigits_int2intvec]
    rfl

theorem add_digit_pow (acc d j : Nat) (hacc6 : ∀ x ∈ int2intvec acc, x ≤ 6)
    (hlt : acc < 10 ^ j) (hd : d ≤ 6) :
    spiral_add acc (d * 10 ^ j) 0 = .ok (acc + d * 10 ^ j) := by
  rcases Nat.eq_zero_or_pos d with h0 | hpos
  · subst h0
    simp only [Nat.zero_mul]
    apply add_no_overlap acc 0 hacc6
    · intro x hx
      rw [int2intvec_of_lt (by omega)] at hx
      simp at hx; omega
    · intro k
      right
      rw [int2intvec_of_lt (by omega)]
      cases k <;> simp
  · have hdig : int2intvec (d * 10 ^ j) = List.replicate j 0 ++ [d] :=
      int2intvec_mul_pow hpos (by omega) j
    apply add_no_overlap acc (d * 10 ^ j) hacc6
    · intro x hx
      rw [hdig] at hx
      rcases List.mem_append.mp hx with h | h
      · rw [List.eq_of_mem_replicate h]; omega
      · simp at h; omega
    · intro k
      rw [hdig]
      rcases lt_trichotomy k j with hk | hk | hk
      · right
        rw [List.getD_eq_getElem?_getD, List.getElem?_append]
        simp [hk, List.getElem?_replicate]
      · left
        subst hk
        cases Nat.eq_zero_or_pos k with
        | inl h0 =>
          subst h0
          have : acc = 0 := by simpa using hlt
          subst this
          rw [int2intvec_of_lt (by omega)]
          simp
        | inr hkpos =>
          apply List.getD_eq_default
          have := int2intvec_length_le (k - 1) acc (by
            have : 10 ^ ((k - 1) + 1) = 10 ^ k := by congr 1; omega
            omega)
          omega
      · right
        apply List.getD_eq_default
        simp
        omega

theorem except_pure {ε α : Type} (a : α) : (pure a : Except ε α) = .ok a := rfl

theorem except_bind_pure {ε α : Type} (e : Except ε α) : e >>= pure = e := by
  cases e <;> rfl

theorem mult_lookup_one {x : Nat} (hx : x ≤ 6) : tlookup multiplication_table x 1 = .ok x := by
  interval_cases x <;> rfl

theorem mult_lookup_zero {x : Nat} (hx : x ≤ 6) : tlookup multiplication_table x 0 = .ok 0 := by
  interval_cases x <;> rfl

theorem mult_one_inner (l : List Nat) : ∀ pref : List Nat,
    (∀ d ∈ l, d ≤ 6) → (∀ d ∈ pref, d ≤ 6) →
    (l.enumFrom pref.length).foldlM
      (fun acc2 ja => do
        let t ← tlookup multiplication_table ja.2 1
        spiral_add acc2 (t * 10 ^ (0 + ja.1)) 0)
      (valOfDigits pref)
    = .ok (valOfDigits (pref ++ l)) := by
  induction l with
  | nil => intro pref _ _; simp [List.enumFrom, except_pure]
  | cons d t ih =>
    intro pref hl hp
    have hd : d ≤ 6 := hl d (by simp)
    rw [List.enumFrom_cons, List.foldlM_cons]
    simp only [mult_lookup_one hd, except_bind_ok]
    rw [show (0 : Nat) + pref.length = pref.length from Nat.zero_add _,
      add_digit_pow (valOfDigits pref) d pref.length (digits_le_of_valOfDigits pref hp)
      (valOfDigits_lt pref (fun x hx => by have := hp x hx; omega)) hd]
    simp only [except_bind_ok]
    have hv : valOfDigits pref + d * 10 ^ pref.length = valOfDigits (pref ++ [d]) := by
      rw [valOfDigits_append]
      simp [valOfDigits]
      ring
    have hlen : pref.length + 1 = (pref ++ [d]).length := by simp
    rw [hv, hlen, ih (pref ++ [d]) (fun x hx => hl x (by simp [hx]))
      (fun x hx => by
        rcases List.mem_append.mp hx with h | h
        · exact hp x h
        · simp at h; omega)]
    simp

theorem mult_zero_inner (l : List Nat) : ∀ i0 : Nat, (∀ d ∈ l, d ≤ 6) →
    (l.enumFrom i0).foldlM
      (fun acc2 ja => do
        let t ← tlookup multiplication_table ja.2 0
        spiral_add acc2 (t * 10 ^ (0 + ja.1)) 0)
      0
    = .ok 0 := by
  induction l with
  | nil => intro i0 _; simp [List.enumFrom, except_pure]
  | cons d t ih =>
    intro i0 hl
    have hd : d ≤ 6 := hl d (by simp)
    rw [List.enumFrom_cons, List.foldlM_cons]
    simp only [mult_lookup_zero hd, except_bind_ok, Nat.zero_mul]
    rw [show spiral_add 0 0 0 = .ok 0 from rfl]
    simp only [except_bind_ok]
    exact ih (i0 + 1) (fun x hx => hl x (by simp [hx]))

/-- C8 : multiply by one is the identity, multiply by zero collapses to the
origin address, for every valid spiral address. -/
theorem claim_C8 (a : Nat) (ha : ∀ d ∈ int2intvec a, d ≤ 6) :
    spiral_mult a 1 0 = .ok a ∧ spiral_mult a 0 0 = .ok 0 := by
  constructor
  · simp only [spiral_mult]
    rw [if_neg (by simp [all_le7_of_le6 ha, show int2intvec 1 = [1] from rfl])]
    rw [show (int2intvec 1).enum = [(0, 1)] from rfl, List.foldlM_cons]
    simp only []
    have h1 := mult_one_inner (int2intvec a) [] ha (by simp)
    simp only [List.length_nil, List.nil_append, show valOfDigits [] = 0 from rfl] at h1
    rw [show (int2intvec a).enum = (int2intvec a).enumFrom 0 from rfl, h1,
      valOfDigits_int2intvec]
    rfl
  · simp only [spiral_mult]
    rw [if_neg (by simp [all_le7_of_le6 ha, show int2intvec 0 = [0] from rfl])]
    rw [show (int2intvec 0).enum = [(0, 0)] from rfl, List.foldlM_cons]
    simp only []
    have h0 := mult_zero_inner (int2intvec a) 0 ha
    rw [show (int2intvec a).enum = (int2intvec a).enumFrom 0 from rfl, h0]
    rfl

/-! ### Base conversion: the round-trip law -/

theorem base7digitsF_zero (f : Nat) : base7digitsF f 0 = [] := by
  cases f <;> rfl

theorem base7digitsF_succ (f n : Nat) :
    base7digitsF (f + 1) (n + 1) = ((n + 1) % 7) :: base7digitsF f ((n + 1) / 7) := rfl

theorem base7digitsF_eq_of_le (n : Nat) : ∀ f g : Nat, n ≤ f → n ≤ g →
    base7digitsF f n = base7digitsF g n := by
  induction n using Nat.strong_induction_on with
  | _ n ih =>
    intro f g hf hg
    cases n with
    | zero => simp [base7digitsF_zero]
    | succ m =>
      cases f with
      | zero => omega
      | succ f =>
        cases g with
        | zero => omega
        | succ g =>
          rw [base7digitsF_succ, base7digitsF_succ]
          have hlt : (m + 1) / 7 < m + 1 := Nat.div_lt_self (Nat.succ_pos m) (by omega)
          exact congrArg _ (ih ((m + 1) / 7) hlt f g (by omega) (by omega))

theorem base7digitsF_eq {n f : Nat} (hn : 1 ≤ n) (hf : n ≤ f) :
    base7digitsF f n = (n % 7) :: base7digitsF (n / 7) (n / 7) := by
  obtain ⟨m, rfl⟩ : ∃ m, n = m + 1 := ⟨n - 1, by omega⟩
  obtain ⟨e, rfl⟩ : ∃ e, f = e + 1 := ⟨f - 1, by omega⟩
  rw [base7digitsF_succ]
  have hlt : (m + 1) / 7 < m + 1 := Nat.div_lt_self (Nat.succ_pos m) (by omega)
  exact congrArg _ (base7digitsF_eq_of_le ((m + 1) / 7) e ((m + 1) / 7) (by omega) (by omega))

theorem foldl7_enumFrom (l : List Nat) : ∀ i0 acc : Nat,
    (l.enumFrom i0).foldl (fun acc p => acc + p.2 * 7 ^ p.1) acc
      = acc + 7 ^ i0 * polyval7 l := by
  induction l with
  | nil => intro i0 acc; simp [polyval7]
  | cons d t ih =>
    intro i0 acc
    rw [List.enumFrom_cons, List.foldl_cons, ih (i0 + 1)]
    simp only [polyval7, pow_succ]
    ring

theorem base7to10_eq_polyval (num : Nat) : base7to10 num = polyval7 (int2intvec num) := by
  rw [base7to10, show (int2intvec num).enum = (int2intvec num).enumFrom 0 from rfl,
    foldl7_enumFrom]
  simp

theorem polyval7_nil : polyval7 [] = 0 := rfl

theorem polyval7_cons (d : Nat) (t : List Nat) : polyval7 (d :: t) = d + 7 * polyval7 t := rfl

theorem polyval7_int2intvec_zero : ∀ a : Nat, polyval7 (int2intvec a) = 0 → a = 0 := by
  intro a
  induction a using Nat.strong_induction_on with
  | _ a ih =>
    intro h
    rw [int2intvec_eq] at h
    by_cases hz : a / 10 = 0
    · rw [if_pos hz, polyval7_cons, polyval7_nil] at h
      omega
    · rw [if_neg hz, polyval7_cons] at h
      have h2 : polyval7 (int2intvec (a / 10)) = 0 := by omega
      have := ih (a / 10) (Nat.div_lt_self (by omega) (by omega)) h2
      omega

theorem mem_int2intvec_head (a : Nat) : a % 10 ∈ int2intvec a := by
  rw [int2intvec_eq]; simp

theorem mem_int2intvec_tail {a d : Nat} (hz : a / 10 ≠ 0) (h : d ∈ int2intvec (a / 10)) :
    d ∈ int2intvec a := by
  rw [int2intvec_eq, if_neg hz]
  simp [h]

theorem roundtrip_aux : ∀ a : Nat, (∀ d ∈ int2intvec a, d ≤ 6) →
    base_encode7 (base7to10 a) = a := by
  intro a
  induction a using Nat.strong_induction_on with
  | _ a ih =>
    intro ha
    rcases Nat.eq_zero_or_pos a with rfl | hpos
    · rfl
    · have hd0 : a % 10 ≤ 6 := ha _ (mem_int2intvec_head a)
      rw [base7to10_eq_polyval, int2intvec_eq]
      by_cases hz : a / 10 = 0
      · have ha10 : a < 10 := by omega
        have hmod : a % 10 = a := Nat.mod_eq_of_lt ha10
        rw [if_pos hz, polyval7_cons, polyval7_nil, hmod, Nat.mul_zero, Nat.add_zero]
        rw [base_encode7, if_neg (by omega)]
        rw [base7digitsF_eq hpos (le_refl a), Nat.mod_eq_of_lt (by omega : a < 7),
          Nat.div_eq_of_lt (by omega : a < 7), base7digitsF_zero]
        simp [valOfDigits]
      · rw [if_neg hz, polyval7_cons, ← base7to10_eq_polyval]
        set v' := base7to10 (a / 10) with hv'
        have hvpos : 1 ≤ v' := by
          rcases Nat.eq_zero_or_pos v' with h0 | h1
          · exfalso
            apply hz
            apply polyval7_int2intvec_zero
            rw [← base7to10_eq_polyval, ← hv', h0]
          · exact h1
        have hvne : a % 10 + 7 * v' ≠ 0 := by omega
        rw [base_encode7, if_neg hvne]
        rw [base7digitsF_eq (by omega) (le_refl _),
          show (a % 10 + 7 * v') % 7 = a % 10 by omega,
          show (a % 10 + 7 * v') / 7 = v' by omega]
        simp only [valOfDigits]
        have hrec : valOfDigits (base7digitsF v' v') = base_encode7 v' := by
          rw [base_encode7, if_neg (by omega)]
        rw [hrec, ih (a / 10) (Nat.div_lt_self (by omega) (by omega))
          (fun d hd => ha d (mem_int2intvec_tail hz hd))]
        omega

/-- C4 : the round-trip law: for every spiral address whose decimal digits
all lie in `[0, 6]`, `positionalToSpiral (spiralToPositional a) = a`
(`base10to7 (base7to10 a) = a`); in particular `base10to7 0 = 0`. -/
theorem claim_C4 : base10to7 0 = 0 ∧ ∀ a : Nat, (∀ d ∈ int2intvec a, d ≤ 6) →
    base10to7 (base7to10 a) = a :=
  ⟨rfl, fun a ha => roundtrip_aux a ha⟩

/-- Witness for C4 at the concrete valid address 3265. -/
theorem claim_C4_witness :
    (∀ d ∈ int2intvec 3265, d ≤ 6) ∧ base10to7 (base7to10 3265) = 3265 :=
  ⟨by decide, claim_C4.2 3265 (by decide)⟩

/-! ### Geometry: sa2hex against the spec's offset sum -/

theorem spec_offset_eq_sa2hex_aux (a : Nat) : ∀ z : Nat, spec_offset a z = sa2hex_aux a z := by
  intro z
  induction z generalizing a with
  | zero =>
    match a with
    | 0 | 1 | 2 | 3 | 4 | 5 | 6 => rfl
    | n + 7 => rfl
  | succ z ih =>
    show spec_offset a z + _ = _
    rw [ih a, ih (a % 6 + 1)]
    show _ = (_, _)
    rw [Prod.ext_iff]
    constructor
    · simp [Prod.fst_add]
    · simp [Prod.snd_add]

theorem sa2hex_fold (l : List Nat) : ∀ (i0 : Nat) (acc : Int × Int), (∀ d ∈ l, d ≤ 6) →
    (l.enumFrom i0).foldlM
      (fun acc p =>
        if 6 < p.2 then Except.error SpiralErr.invalidAddress
        else if p.2 ≠ 0 then
          Except.ok (acc.1 + (sa2hex_aux p.2 p.1).1, acc.2 + (sa2hex_aux p.2 p.1).2)
        else Except.ok acc) acc
    = .ok (acc + ((l.enumFrom i0).map
        (fun p => if p.2 ≠ 0 then sa2hex_aux p.2 p.1 else (0, 0))).sum) := by
  induction l with
  | nil => intro i0 acc _; simp [List.enumFrom, except_pure]
  | cons d t ih =>
    intro i0 acc hl
    have hd : d ≤ 6 := hl d (by simp)
    rw [List.enumFrom_cons, List.foldlM_cons]
    simp only [if_neg (by omega : ¬ 6 < d)]
    by_cases hz : d ≠ 0
    · rw [if_pos hz, except_bind_ok, ih (i0 + 1) _ (fun x hx => hl x (by simp [hx]))]
      rw [List.map_cons, List.sum_cons, if_pos hz]
      congr 1
      rw [Prod.ext_iff]
      constructor <;> simp [Prod.fst_add, Prod.snd_add] <;> ring
    · rw [if_neg hz, except_bind_ok, ih (i0 + 1) _ (fun x hx => hl x (by simp [hx]))]
      rw [List.map_cons, List.sum_cons, if_neg hz]
      rw [show ((0, 0) : Int × Int) = 0 from rfl, zero_add]

/-- C5 : for every valid spiral address, `sa2hex` equals the spec's
`addressToOffset`: the sum over all nonzero digits at positions `i` of
`offset(digit, i)` given by the base table and the doubling recurrence; in
particular `sa2hex 0 = (0,0)` and `sa2hex 1 = (0,8)`. -/
theorem claim_C5 :
    (∀ sa : Nat, (∀ d ∈ int2intvec sa, d ≤ 6) → sa2hex sa = .ok (spec_addressToOffset sa))
    ∧ sa2hex 0 = .ok (0, 0) ∧ sa2hex 1 = .ok (0, 8) := by
  refine ⟨?_, rfl, rfl⟩
  intro sa hd
  rw [sa2hex, show (int2intvec sa).enum = (int2intvec sa).enumFrom 0 from rfl,
    sa2hex_fold (int2intvec sa) 0 ((0 : Int), (0 : Int)) hd]
  rw [spec_addressToOffset, show (int2intvec sa).enum = (int2intvec sa).enumFrom 0 from rfl]
  simp only [spec_offset_eq_sa2hex_aux]
  rw [show (((0 : Int), (0 : Int)) : Int × Int) = 0 from rfl, zero_add]

/-- Witness for C5 at the concrete valid address 30265. -/
theorem claim_C5_witness :
    (∀ d ∈ int2intvec 30265, d ≤ 6) ∧ sa2hex 30265 = .ok (spec_addressToOffset 30265) :=
  ⟨by decide, claim_C5.1 30265 (by decide)⟩

/-! ### The addition algebra: raw top-digit emission, digit validation,
commutativity of the single-digit tables -/

/-- C1 counterexample: `add(1, 1)` (equal digit length, most-significant
table lookup `63`, a two-digit token) returns the raw token `63` — the
carry digit is *not* dropped (the result is not `3`) and the result has
more decimal digits than either operand. -/
theorem claim_C1_counterexample :
    spiral_add 1 1 0 = .ok 63 ∧ spiral_add 1 1 0 ≠ .ok 3 ∧
    ¬ ((int2intvec 63).length ≤ max (int2intvec 1).length (int2intvec 1).length) :=
  ⟨rfl, by decide, by decide⟩

/-- C1 (amended): at the most-significant position the raw addition-table
token is emitted without carry extraction: two single-digit operands return
the table entry itself (which may be a two-digit token), and the carry
digit is retained in the emitted result rather than dropped, so the result
can have more digits than the longer operand (`add(1,1) = 63`,
`add(11,11) = 603`, three digits from two-digit operands). -/
theorem claim_C1 :
    (∀ a b : Nat, a ≤ 6 → b ≤ 6 → spiral_add a b 0 = tlookup addition_table a b) ∧
    spiral_add 11 11 0 = .ok 603 ∧ (int2intvec 603).length = 3 := by
  refine ⟨?_, rfl, rfl⟩
  intro a b ha hb
  interval_cases a <;> interval_cases b <;> rfl

/-- Witness for C1 (amended) at the single-digit pair (1, 1). -/
theorem claim_C1_witness :
    ((1 : Nat) ≤ 6 ∧ (1 : Nat) ≤ 6) ∧ spiral_add 1 1 0 = tlookup addition_table 1 1 :=
  ⟨⟨by decide, by decide⟩, claim_C1.1 1 1 (by decide) (by decide)⟩

/-- C2 : the digit-validation bug: a digit equal to 7 (outside `[0,6]`)
passes the `> 7` validation check of `spiral_add`/`spiral_mult` and the
operation then fails with a table-lookup `IndexError`, not with the
"Invalid spiral address!" (`InvalidAddress`) path the spec requires;
digits 8 and 9 are caught by the check as intended. -/
theorem claim_C2 :
    spiral_add 7 0 0 = .error .indexError ∧
    spiral_add 0 7 0 = .error .indexError ∧
    spiral_mult 7 1 0 = .error .indexError ∧
    spiral_mult 1 7 0 = .error .indexError ∧
    spiral_add 7 0 0 ≠ .error .invalidAddress ∧
    spiral_add 8 0 0 = .error .invalidAddress ∧
    spiral_mult 9 1 0 = .error .invalidAddress :=
  ⟨rfl, rfl, rfl, rfl, by decide, rfl, rfl⟩

/-- C10 : both 7×7 lookup tables are symmetric, so single-digit spiral
addition and multiplication are commutative. -/
theorem claim_C10 (a b : Nat) (ha : a ≤ 6) (hb : b ≤ 6) :
    spiral_add a b 0 = spiral_add b a 0 ∧ spiral_mult a b 0 = spiral_mult b a 0 := by
  constructor <;> (interval_cases a <;> interval_cases b <;> rfl)

/-- Witness for C10 at the single-digit pair (2, 5). -/
theorem claim_C10_witness :
    ((2 : Nat) ≤ 6 ∧ (5 : Nat) ≤ 6) ∧ spiral_add 2 5 0 = spiral_add 5 2 0 ∧
      spiral_mult 2 5 0 = spiral_mult 5 2 0 :=
  ⟨⟨by decide, by decide⟩, claim_C10 2 5 (by decide) (by decide)⟩

/-- Witness for C8 at the concrete valid address 416. -/
theorem claim_C8_witness :
    (∀ d ∈ int2intvec 416, d ≤ 6) ∧ spiral_mult 416 1 0 = .ok 416 ∧
      spiral_mult 416 0 0 = .ok 0 :=
  ⟨by decide, claim_C8 416 (by decide)⟩

/-! ### Hyperpel sampling on a constant grid -/

theorem sa_value_const_fold {K : Type} [Field K] (g : NpGrid K) (c : K) (ctr : Int × Int) :
    ∀ (xs : List (Int × Int)) (acc : K),
    (∀ o ∈ xs, npGet g (o.1 + ctr.1) (o.2 + ctr.2) = some c) →
    xs.foldlM
      (fun acc o =>
        match npGet g (o.1 + ctr.1) (o.2 + ctr.2) with
        | some v => Except.ok (acc + v)
        | none => Except.error (.indexError : SpiralErr)) acc
    = .ok (acc + xs.length • c) := by
  intro xs
  induction xs with
  | nil => intro acc _; simp [List.foldlM_nil, except_pure]
  | cons o t ih =>
    intro acc h
    rw [List.foldlM_cons, h o (by simp)]
    show Except.ok (acc + c) >>= _ = _
    rw [except_bind_ok, ih (acc + c) (fun x hx => h x (by simp [hx]))]
    rw [List.length_cons, succ_nsmul]
    rw [show acc + c + t.length • c = acc + (t.length • c + c) from by ring]

/-- Helper: `sa_value` on a constant grid returns the constant whenever the
translated footprint lies in numpy's valid index range (negative indices
wrap, so only `-rows ≤ i < rows` and `-cols ≤ j < cols` are required). -/
theorem sa_value_const {K : Type} [Field K] (g : NpGrid K) (c : K) (sa : Nat)
    (ctr : Int × Int)
    (hdata : ∀ i j, g.data i j = c) (h56 : (56 : K) ≠ 0)
    (hctr : sa2hex sa = .ok ctr)
    (hbound : ∀ o ∈ hyperpel_sa,
      -(g.rows : Int) ≤ o.1 + ctr.1 ∧ o.1 + ctr.1 < (g.rows : Int) ∧
      -(g.cols : Int) ≤ o.2 + ctr.2 ∧ o.2 + ctr.2 < (g.cols : Int)) :
    sa_value g sa = .ok c := by
  rw [sa_value, hctr]
  show Except.ok ctr >>= _ = _
  rw [except_bind_ok]
  have hread : ∀ o ∈ hyperpel_sa, npGet g (o.1 + ctr.1) (o.2 + ctr.2) = some c := by
    intro o ho
    obtain ⟨h1, h2, h3, h4⟩ := hbound o ho
    rw [npGet, if_pos ⟨h1, h2, h3, h4⟩]
    rw [hdata]
  rw [sa_value_const_fold g c ctr hyperpel_sa 0 hread]
  rw [except_bind_ok, zero_add, show hyperpel_sa.length = 56 from rfl, nsmul_eq_mul]
  rw [show ((56 : Nat) : K) = (56 : K) from by norm_num]
  rw [mul_div_cancel_left₀ _ h56]
  rfl

/-- C9 : `sa_value` on a constant-valued grid returns that constant, for
every valid spiral address whose translated 56-point hyperpel footprint
lies within the grid bounds (it is the arithmetic mean of the 56 addressed
grid values). -/
theorem claim_C9 {K : Type} [Field K] (g : NpGrid K) (c : K) (sa : Nat) (ctr : Int × Int)
    (hdata : ∀ i j, g.data i j = c) (h56 : (56 : K) ≠ 0)
    (hctr : sa2hex sa = .ok ctr)
    (hbound : ∀ o ∈ hyperpel_sa, 0 ≤ o.1 + ctr.1 ∧ o.1 + ctr.1 < (g.rows : Int) ∧
      0 ≤ o.2 + ctr.2 ∧ o.2 + ctr.2 < (g.cols : Int)) :
    sa_value g sa = .ok c := by
  apply sa_value_const g c sa ctr hdata h56 hctr
  intro o ho
  obtain ⟨h1, h2, h3, h4⟩ := hbound o ho
  have hr : (0 : Int) ≤ (g.rows : Int) := by positivity
  have hc2 : (0 : Int) ≤ (g.cols : Int) := by positivity
  exact ⟨by omega, h2, by omega, h4⟩

/-- Witness for C9: a constant 12×8 rational grid at address 6, whose
footprint (centered at (7,4)) is entirely in bounds. -/
theorem claim_C9_witness :
    (∀ o ∈ hyperpel_sa, 0 ≤ o.1 + ((7 : Int), (4 : Int)).1 ∧
        o.1 + ((7 : Int), (4 : Int)).1 < ((12 : Nat) : Int) ∧
        0 ≤ o.2 + ((7 : Int), (4 : Int)).2 ∧
        o.2 + ((7 : Int), (4 : Int)).2 < ((8 : Nat) : Int)) ∧
    sa_value (NpGrid.mk 12 8 (fun _ _ => (5 : ℚ))) 6 = .ok 5 :=
  ⟨by decide, claim_C9 (NpGrid.mk 12 8 (fun _ _ => (5 : ℚ))) 5 6 (7, 4)
    (fun _ _ => rfl) (by norm_num) rfl (by decide)⟩

/-! ### The generalized invariant: conjugation convention -/

theorem omegaf_ok_shape {K : Type} [Field K] [StarRing K] (g : NpGrid K) (a : Nat)
    (w : List K) (h : omegaf g a = .ok w) :
    ∃ v1 v2 v3 v4 v5 v6, w = [v1, v2, v3, v4, v5, v6] ∧
      omega_comp g a 1 = .ok v1 ∧ omega_comp g a 2 = .ok v2 ∧
      omega_comp g a 3 = .ok v3 ∧ omega_comp g a 4 = .ok v4 ∧
      omega_comp g a 5 = .ok v5 ∧ omega_comp g a 6 = .ok v6 := by
  rw [omegaf] at h
  cases e1 : omega_comp g a 1 with
  | error err => rw [e1, except_bind_error] at h; exact absurd h (by simp)
  | ok v1 =>
  rw [e1, except_bind_ok] at h
  cases e2 : omega_comp g a 2 with
  | error err => rw [e2, except_bind_error] at h; exact absurd h (by simp)
  | ok v2 =>
  rw [e2, except_bind_ok] at h
  cases e3 : omega_comp g a 3 with
  | error err => rw [e3, except_bind_error] at h; exact absurd h (by simp)
  | ok v3 =>
  rw [e3, except_bind_ok] at h
  cases e4 : omega_comp g a 4 with
  | error err => rw [e4, except_bind_error] at h; exact absurd h (by simp)
  | ok v4 =>
  rw [e4, except_bind_ok] at h
  cases e5 : omega_comp g a 5 with
  | error err => rw [e5, except_bind_error] at h; exact absurd h (by simp)
  | ok v5 =>
  rw [e5, except_bind_ok] at h
  cases e6 : omega_comp g a 6 with
  | error err => rw [e6, except_bind_error] at h; exact absurd h (by simp)
  | ok v6 =>
  rw [e6, except_bind_ok] at h
  exact ⟨v1, v2, v3, v4, v5, v6, (Except.ok.inj h).symm, rfl, rfl, rfl, rfl, rfl, rfl⟩

/-- C6 : for every spectrum and addresses whose frequency vectors are
defined, `invariant` equals `Σ_{k=1..6} conj(ω1_k · ω2_k) · ω3_k` —
conjugation applied to the elementwise product of the first two frequency
vectors, not to the third — where the k-th (1-indexed) component of the
frequency vector of `a` is `sa_value(spectrum, spiral_mult(a, k))`
(= `omega_comp`). -/
theorem claim_C6 {K : Type} [Field K] [StarRing K] (g : NpGrid K) (a1 a2 a3 : Nat)
    (w1 w2 w3 : List K) (h1 : omegaf g a1 = .ok w1) (h2 : omegaf g a2 = .ok w2)
    (h3 : omegaf g a3 = .ok w3) :
    invariant g a1 a2 a3
      = .ok (∑ k : Fin 6, star (w1.getD k 0 * w2.getD k 0) * w3.getD k 0) ∧
    ∀ k : Fin 6, omega_comp g a1 ((k : Nat) + 1) = .ok (w1.getD k 0) := by
  obtain ⟨x1, x2, x3, x4, x5, x6, rfl, e1, e2, e3, e4, e5, e6⟩ := omegaf_ok_shape g a1 w1 h1
  obtain ⟨y1, y2, y3, y4, y5, y6, rfl, f1, f2, f3, f4, f5, f6⟩ := omegaf_ok_shape g a2 w2 h2
  obtain ⟨z1, z2, z3, z4, z5, z6, rfl, k1, k2, k3, k4, k5, k6⟩ := omegaf_ok_shape g a3 w3 h3
  constructor
  · rw [invariant, h1, except_bind_ok, h2, except_bind_ok, h3, except_bind_ok]
    rw [Fin.sum_univ_six]
    show Except.ok _ = Except.ok _
    congr 1
    show star (x1 * y1) * z1 + (star (x2 * y2) * z2 + (star (x3 * y3) * z3 +
        (star (x4 * y4) * z4 + (star (x5 * y5) * z5 + (star (x6 * y6) * z6 + 0))))) =
      star (x1 * y1) * z1 + star (x2 * y2) * z2 + star (x3 * y3) * z3 +
        star (x4 * y4) * z4 + star (x5 * y5) * z5 + star (x6 * y6) * z6
    ring
  · intro k
    fin_cases k
    · exact e1
    · exact e2
    · exact e3
    · exact e4
    · exact e5
    · exact e6

/-- Helper: on a constant grid large enough for the 9×9 window around the
origin (in numpy's wrapping index range), the frequency vector at address 0
is the constant vector. -/
theorem omegaf_const0 {K : Type} [Field K] [StarRing K] (g : NpGrid K) (c : K)
    (hdata : ∀ i j, g.data i j = c) (h56 : (56 : K) ≠ 0)
    (hbound : ∀ o ∈ hyperpel_sa,
      -(g.rows : Int) ≤ o.1 + ((0 : Int), (0 : Int)).1 ∧
      o.1 + ((0 : Int), (0 : Int)).1 < (g.rows : Int) ∧
      -(g.cols : Int) ≤ o.2 + ((0 : Int), (0 : Int)).2 ∧
      o.2 + ((0 : Int), (0 : Int)).2 < (g.cols : Int)) :
    omegaf g 0 = .ok [c, c, c, c, c, c] := by
  have hsv : sa_value g 0 = .ok c :=
    sa_value_const g c 0 ((0 : Int), (0 : Int)) hdata h56 rfl hbound
  have hc1 : omega_comp g 0 1 = .ok c := by
    rw [omega_comp, show spiral_mult 0 1 0 = Except.ok 0 from rfl, except_bind_ok, hsv]
  have hc2 : omega_comp g 0 2 = .ok c := by
    rw [omega_comp, show spiral_mult 0 2 0 = Except.ok 0 from rfl, except_bind_ok, hsv]
  have hc3 : omega_comp g 0 3 = .ok c := by
    rw [omega_comp, show spiral_mult 0 3 0 = Except.ok 0 from rfl, except_bind_ok, hsv]
  have hc4 : omega_comp g 0 4 = .ok c := by
    rw [omega_comp, show spiral_mult 0 4 0 = Except.ok 0 from rfl, except_bind_ok, hsv]
  have hc5 : omega_comp g 0 5 = .ok c := by
    rw [omega_comp, show spiral_mult 0 5 0 = Except.ok 0 from rfl, except_bind_ok, hsv]
  have hc6 : omega_comp g 0 6 = .ok c := by
    rw [omega_comp, show spiral_mult 0 6 0 = Except.ok 0 from rfl, except_bind_ok, hsv]
  rw [omegaf, hc1, except_bind_ok, hc2, except_bind_ok, hc3, except_bind_ok,
    hc4, except_bind_ok, hc5, except_bind_ok, hc6, except_bind_ok]
  rfl

/-- Witness for C6: a constant 20×20 rational grid at addresses (0, 0, 0),
whose frequency vectors are the constant vector [5,5,5,5,5,5]. -/
theorem claim_C6_witness :
    omegaf (NpGrid.mk 20 20 (fun _ _ => (5 : ℚ))) 0 = .ok [5, 5, 5, 5, 5, 5] ∧
    invariant (NpGrid.mk 20 20 (fun _ _ => (5 : ℚ))) 0 0 0
      = .ok (∑ k : Fin 6, star (([5, 5, 5, 5, 5, 5] : List ℚ).getD k 0 *
          ([5, 5, 5, 5, 5, 5] : List ℚ).getD k 0) *
          ([5, 5, 5, 5, 5, 5] : List ℚ).getD k 0) := by
  have hom : omegaf (NpGrid.mk 20 20 (fun _ _ => (5 : ℚ))) 0 = .ok [5, 5, 5, 5, 5, 5] :=
    omegaf_const0 (NpGrid.mk 20 20 (fun _ _ => (5 : ℚ))) 5 (fun _ _ => rfl)
      (by norm_num) (by decide)
  exact ⟨hom, (claim_C6 (NpGrid.mk 20 20 (fun _ _ => (5 : ℚ))) 0 0 0 _ _ _ hom hom hom).1⟩

/-! ### Bispectrum loops: emission order and shape -/

theorem mapE_nil {α β : Type} (f : α → Except SpiralErr β) : mapE f [] = .ok [] := rfl

theorem mapE_cons {α β : Type} (f : α → Except SpiralErr β) (x : α) (xs : List α) :
    mapE f (x :: xs) = (f x >>= fun y => mapE f xs >>= fun ys => pure (y :: ys)) := rfl

theorem except_pure_bind {ε α β : Type} (a : α) (f : α → Except ε β) :
    (pure a : Except ε α) >>= f = f a := rfl

theorem except_bind_assoc {ε α β γ : Type} (m : Except ε α) (f : α → Except ε β)
    (g : β → Except ε γ) : (m >>= f) >>= g = m >>= fun x => f x >>= g := by
  cases m <;> rfl

theorem mapE_ok_length {α β : Type} (f : α → Except SpiralErr β) :
    ∀ (xs : List α) (l : List β), mapE f xs = .ok l → l.length = xs.length := by
  intro xs
  induction xs with
  | nil => intro l h; rw [mapE_nil] at h; rw [← Except.ok.inj h]; rfl
  | cons x xs ih =>
    intro l h
    rw [mapE_cons] at h
    cases hf : f x with
    | error e => rw [hf, except_bind_error] at h; exact absurd h (by simp)
    | ok v =>
      rw [hf, except_bind_ok] at h
      cases hm : mapE f xs with
      | error e => rw [hm, except_bind_error] at h; exact absurd h (by simp)
      | ok ys =>
        rw [hm, except_bind_ok] at h
        rw [← Except.ok.inj h]
        simp [ih ys hm]

theorem foldlM_append_one {α β : Type} (f : α → Except SpiralErr β) :
    ∀ (xs : List α) (acc : List β),
    xs.foldlM (fun a x => f x >>= fun v => pure (a ++ [v])) acc
      = (mapE f xs >>= fun l => pure (acc ++ l)) := by
  intro xs
  induction xs with
  | nil => intro acc; rw [List.foldlM_nil, mapE_nil, except_bind_ok]; simp [except_pure]
  | cons x xs ih =>
    intro acc
    rw [List.foldlM_cons, mapE_cons]
    cases hf : f x with
    | error e => simp [except_bind_error]
    | ok v =>
      simp only [except_bind_ok, except_pure_bind]
      rw [ih (acc ++ [v]), except_bind_assoc]
      cases hm : mapE f xs with
      | error e => simp [except_bind_error]
      | ok l => simp [except_bind_ok, except_pure]

theorem foldlM_append_two {α β γ : Type} (E : α → Except SpiralErr γ)
    (Fv : α → γ → Except SpiralErr β) :
    ∀ (xs : List α) (acc : List β),
    xs.foldlM (fun a x => E x >>= fun s => Fv x s >>= fun v => pure (a ++ [v])) acc
      = (mapE (fun x => E x >>= fun s => Fv x s) xs >>= fun l => pure (acc ++ l)) := by
  intro xs
  induction xs with
  | nil => intro acc; rw [List.foldlM_nil, mapE_nil, except_bind_ok]; simp [except_pure]
  | cons x xs ih =>
    intro acc
    rw [List.foldlM_cons, mapE_cons]
    cases hE : E x with
    | error e => simp [except_bind_error]
    | ok s =>
      simp only [except_bind_ok]
      cases hF : Fv x s with
      | error e => simp [except_bind_error]
      | ok v =>
        simp only [except_bind_ok, except_pure_bind]
        rw [ih (acc ++ [v]), except_bind_assoc]
        cases hm : mapE (fun x => E x >>= fun s => Fv x s) xs with
        | error e => simp [except_bind_error]
        | ok l => simp [except_bind_ok, except_pure]

theorem foldlM_append_blk {α β : Type} (F : α → Except SpiralErr (List β)) :
    ∀ (xs : List α) (acc : List β),
    xs.foldlM (fun a x => F x >>= fun l => pure (a ++ l)) acc
      = (mapE F xs >>= fun ls => pure (acc ++ ls.flatten)) := by
  intro xs
  induction xs with
  | nil => intro acc; rw [List.foldlM_nil, mapE_nil, except_bind_ok]; simp [except_pure]
  | cons x xs ih =>
    intro acc
    rw [List.foldlM_cons, mapE_cons]
    cases hf : F x with
    | error e => simp [except_bind_error]
    | ok l =>
      simp only [except_bind_ok, except_pure_bind]
      rw [ih (acc ++ l), except_bind_assoc]
      cases hm : mapE F xs with
      | error e => simp [except_bind_error]
      | ok ls => simp [except_bind_ok, except_pure, List.append_assoc]

theorem foldlM_append_join {α β : Type} (F : α → Except SpiralErr (List (List β))) :
    ∀ (xs : List α) (acc : List β),
    xs.foldlM (fun a x => F x >>= fun ls => pure (a ++ ls.flatten)) acc
      = (mapE F xs >>= fun lss => pure (acc ++ (lss.map List.flatten).flatten)) := by
  intro xs
  induction xs with
  | nil => intro acc; rw [List.foldlM_nil, mapE_nil, except_bind_ok]; simp [except_pure]
  | cons x xs ih =>
    intro acc
    rw [List.foldlM_cons, mapE_cons]
    cases hf : F x with
    | error e => simp [except_bind_error]
    | ok ls =>
      simp only [except_bind_ok, except_pure_bind]
      rw [ih (acc ++ ls.flatten), except_bind_assoc]
      cases hm : mapE F xs with
      | error e => simp [except_bind_error]
      | ok lss => simp [except_bind_ok, except_pure, List.append_assoc]

theorem mapE_map {α β γ : Type} (f : β → Except SpiralErr γ) (h : α → β) :
    ∀ xs : List α, mapE f (xs.map h) = mapE (fun x => f (h x)) xs := by
  intro xs
  induction xs with
  | nil => rfl
  | cons x xs ih => rw [List.map_cons, mapE_cons, mapE_cons, ih]

theorem mapE_append {α β : Type} (f : α → Except SpiralErr β) :
    ∀ xs ys : List α,
    mapE f (xs ++ ys) = (mapE f xs >>= fun as => mapE f ys >>= fun bs => pure (as ++ bs)) := by
  intro xs ys
  induction xs with
  | nil =>
    rw [List.nil_append, mapE_nil, except_bind_ok]
    cases hm : mapE f ys with
    | error e => simp [except_bind_error]
    | ok l => simp [except_bind_ok, except_pure]
  | cons x xs ih =>
    rw [List.cons_append, mapE_cons, mapE_cons, ih]
    cases hf : f x with
    | error e => simp [except_bind_error]
    | ok v =>
      simp only [except_bind_ok, except_bind_assoc]
      cases hm : mapE f xs with
      | error e => simp [except_bind_error]
      | ok as =>
        simp only [except_bind_ok, except_pure, except_bind_assoc]
        cases hy : mapE f ys with
        | error e => simp [except_bind_error]
        | ok bs => simp [except_bind_ok, except_pure]

theorem mapE_flatMap {α β γ : Type} (f : β → Except SpiralErr γ) (h : α → List β) :
    ∀ xs : List α,
    mapE f (xs.flatMap h) = (mapE (fun x => mapE f (h x)) xs >>= fun ls => pure ls.flatten) := by
  intro xs
  induction xs with
  | nil => rfl
  | cons x xs ih =>
    rw [List.flatMap_cons, mapE_append, ih, mapE_cons]
    cases hf : mapE f (h x) with
    | error e => simp [except_bind_error]
    | ok as =>
      simp only [except_bind_ok, except_bind_assoc]
      cases hm : mapE (fun x => mapE f (h x)) xs with
      | error e => simp [except_bind_error]
      | ok ls => simp [except_bind_ok, except_pure]

theorem mapE_postmap {α β γ : Type} (G : α → Except SpiralErr β) (j : β → γ) :
    ∀ xs : List α,
    mapE (fun x => G x >>= fun y => pure (j y)) xs
      = (mapE G xs >>= fun ys => pure (ys.map j)) := by
  intro xs
  induction xs with
  | nil => rfl
  | cons x xs ih =>
    rw [mapE_cons, mapE_cons, ih]
    cases hg : G x with
    | error e => simp [except_bind_error]
    | ok v =>
      simp only [except_bind_ok, except_pure, except_bind_assoc]
      cases hm : mapE G xs with
      | error e => simp [except_bind_error]
      | ok ys => simp [except_bind_ok, except_pure]

theorem bispectral_inv_false_unfold {K : Type} [Field K] [StarRing K] (g : NpGrid K) :
    bispectral_inv g false
      = indexes.foldlM
          (fun acc sa1 =>
            indexes.foldlM
              (fun acc2 sa2 =>
                invariant g sa1 sa2 (base10to7 (base7to10 sa1 + base7to10 sa2)) >>=
                  fun v => pure (acc2 ++ [v]))
              acc)
          [] := rfl

theorem bispectral_inv_true_unfold {K : Type} [Field K] [StarRing K] (g : NpGrid K) :
    bispectral_inv g true
      = indexes.foldlM
          (fun acc sa1 =>
            indexes.foldlM
              (fun acc2 sa2 =>
                (List.range 6).foldlM
                  (fun acc3 r =>
                    spiral_mult sa2 r 0 >>= fun sa2_rot =>
                      invariant g sa1 sa2 (base10to7 (base7to10 sa1 + base7to10 sa2_rot)) >>=
                        fun v => pure (acc3 ++ [v]))
                  acc2)
              acc)
          [] := rfl

theorem bispec_plain_eq {K : Type} [Field K] [StarRing K] (g : NpGrid K) :
    bispectral_inv g false
      = mapE (fun p => invariant g p.1 p.2 (base10to7 (base7to10 p.1 + base7to10 p.2)))
          plain_tuples := by
  rw [bispectral_inv_false_unfold]
  simp only [foldlM_append_one]
  simp only [foldlM_append_blk]
  rw [plain_tuples, mapE_flatMap]
  simp only [mapE_map]
  simp

theorem bispec_rot_eq {K : Type} [Field K] [StarRing K] (g : NpGrid K) :
    bispectral_inv g true
      = mapE (fun t => spiral_mult t.2.1 t.2.2 0 >>= fun sa2_rot =>
          invariant g t.1 t.2.1 (base10to7 (base7to10 t.1 + base7to10 sa2_rot)))
          rot_tuples := by
  rw [bispectral_inv_true_unfold]
  simp only [foldlM_append_two]
  simp only [foldlM_append_blk]
  simp only [foldlM_append_join]
  rw [rot_tuples, mapE_flatMap]
  simp only [mapE_flatMap, mapE_map, mapE_postmap]
  rw [except_bind_assoc]
  simp only [except_pure_bind]
  simp

/-- C3 : the plain bispectrum emits, for every ordered pair `(sa1, sa2)` of
the canonical 9-address set, `invariant(spectrum, sa1, sa2, sa3)` with
`sa3 = base10to7 (base7to10 sa1 + base7to10 sa2)`; the rotational
bispectrum emits, for each rotation `r = 0..5`,
`invariant(spectrum, sa1, sa2, sa3)` with the *unrotated* `sa2` as second
argument and `sa3 = base10to7 (base7to10 sa1 + base7to10 (multiply sa2 r))`. -/
theorem claim_C3 {K : Type} [Field K] [StarRing K] (g : NpGrid K) :
    bispectral_inv g false
      = mapE (fun p => invariant g p.1 p.2 (base10to7 (base7to10 p.1 + base7to10 p.2)))
          plain_tuples
    ∧ bispectral_inv g true
      = mapE (fun t => spiral_mult t.2.1 t.2.2 0 >>= fun sa2_rot =>
          invariant g t.1 t.2.1 (base10to7 (base7to10 t.1 + base7to10 sa2_rot)))
          rot_tuples :=
  ⟨bispec_plain_eq g, bispec_rot_eq g⟩

/-- C7 : the plain bispectrum enumerates 81 ordered pairs and the
rotational one 486 ordered triples, in the deterministic order `sa1` outer,
`sa2` inner, `r` innermost; whenever `bispectral_inv` returns a vector, the
vector has exactly 81 (plain) or 486 (rotational) entries, produced in that
order. -/
theorem claim_C7 {K : Type} [Field K] [StarRing K] (g : NpGrid K) :
    plain_tuples.length = 81 ∧ rot_tuples.length = 486 ∧
    (bispectral_inv g false).map List.length
      = (bispectral_inv g false).map (fun _ => 81) ∧
    (bispectral_inv g true).map List.length
      = (bispectral_inv g true).map (fun _ => 486) ∧
    bispectral_inv g false
      = mapE (fun p => invariant g p.1 p.2 (base10to7 (base7to10 p.1 + base7to10 p.2)))
          plain_tuples
    ∧ bispectral_inv g true
      = mapE (fun t => spiral_mult t.2.1 t.2.2 0 >>= fun sa2_rot =>
          invariant g t.1 t.2.1 (base10to7 (base7to10 t.1 + base7to10 sa2_rot)))
          rot_tuples := by
  refine ⟨rfl, rfl, ?_, ?_, bispec_plain_eq g, bispec_rot_eq g⟩
  · rw [bispec_plain_eq g]
    cases h : mapE
        (fun p => invariant g p.1 p.2 (base10to7 (base7to10 p.1 + base7to10 p.2)))
        plain_tuples with
    | error e => rfl
    | ok l =>
      have hl := mapE_ok_length _ plain_tuples l h
      show Except.ok l.length = Except.ok 81
      rw [hl]
      rfl
  · rw [bispec_rot_eq g]
    cases h : mapE
        (fun t => spiral_mult t.2.1 t.2.2 0 >>= fun sa2_rot =>
          invariant g t.1 t.2.1 (base10to7 (base7to10 t.1 + base7to10 sa2_rot)))
        rot_tuples with
    | error e => rfl
    | ok l =>
      have hl := mapE_ok_length _ rot_tuples l h
      show Except.ok l.length = Except.ok 486
      rw [hl]
      rfl
